import Mathlib

/-!
Shallow embedding of the blockchain-go repository (src/blockchain.go) and
proofs of the frozen claims about it.

Embedding conventions:
* Go `int` values that are always non-negative in the program (block index,
  nonce, transaction count) are embedded as `Nat`; the `int64` Unix timestamp
  is embedded as `Int`.
* `float64` amounts are embedded as exact rationals `ℚ`; the `fmt.Sprintf`
  verb `%f` (fixed-point, 6 digits after the decimal point, round to nearest
  with ties to even, as Go strconv renders it) is embedded by `formatFloat`.
  Amounts are non-negative in every flow of the program, and `formatFloat`
  is faithful on non-negative values.
* `time.Now().Unix()` is an ambient input; each function reading the clock
  takes the current time as an explicit parameter.
* `crypto/sha256` and `encoding/hex` are embedded by an executable SHA-256
  over byte lists (`sha256`) and lowercase hex encoding (`hexEncode`);
  `[]byte(s)` string-to-byte conversion is the UTF-8 encoding `strBytes`.
* The unbounded mining loop of `proofOfWork` is embedded fuel-indexed
  (`powLoop`): `none` means the loop has not yet terminated within `fuel`
  iterations; termination claims quantify over fuel.
-/

/-! ## 32-bit word arithmetic (values kept below 2 ^ 32) -/

def w32 : Nat := 4294967296

def mask32 : Nat := 4294967295

def add32 (a b : Nat) : Nat := (a + b) % w32

def rotr32 (x k : Nat) : Nat := x / 2 ^ k + x % 2 ^ k * 2 ^ (32 - k)

def shr32 (x k : Nat) : Nat := x / 2 ^ k

def ch32 (x y z : Nat) : Nat := (x &&& y) ^^^ ((x ^^^ mask32) &&& z)

def maj32 (x y z : Nat) : Nat := (x &&& y) ^^^ (x &&& z) ^^^ (y &&& z)

def bsig0 (x : Nat) : Nat := (rotr32 x 2) ^^^ (rotr32 x 13) ^^^ (rotr32 x 22)

def bsig1 (x : Nat) : Nat := (rotr32 x 6) ^^^ (rotr32 x 11) ^^^ (rotr32 x 25)

def ssig0 (x : Nat) : Nat := (rotr32 x 7) ^^^ (rotr32 x 18) ^^^ (shr32 x 3)

def ssig1 (x : Nat) : Nat := (rotr32 x 17) ^^^ (rotr32 x 19) ^^^ (shr32 x 10)

/-! ## SHA-256 (FIPS 180-4), executable over byte lists -/

/-- The eight working variables of the SHA-256 compression function. -/
structure Sha256State where
  a : Nat
  b : Nat
  c : Nat
  d : Nat
  e : Nat
  f : Nat
  g : Nat
  h : Nat
deriving DecidableEq

/-- Initial hash value H(0): fractional parts of square roots of the first
eight primes. -/
def sha256Init : Sha256State :=
  ⟨1779033703, 3144134277, 1013904242, 2773480762,
   1359893119, 2600822924, 528734635, 1541459225⟩

/-- Round constants K: fractional parts of cube roots of the first 64
primes. -/
def K256 : List Nat := [
  1116352408, 1899447441, 3049323471, 3921009573, 961987163,
  1508970993, 2453635748, 2870763221, 3624381080, 310598401,
  607225278, 1426881987, 1925078388, 2162078206, 2614888103,
  3248222580, 3835390401, 4022224774, 264347078, 604807628,
  770255983, 1249150122, 1555081692, 1996064986, 2554220882,
  2821834349, 2952996808, 3210313671, 3336571891, 3584528711,
  113926993, 338241895, 666307205, 773529912, 1294757372,
  1396182291, 1695183700, 1986661051, 2177026350, 2456956037,
  2730485921, 2820302411, 3259730800, 3345764771, 3516065817,
  3600352804, 4094571909, 275423344, 430227734, 506948616,
  659060556, 883997877, 958139571, 1322822218, 1537002063,
  1747873779, 1955562222, 2024104815, 2227730452, 2361852424,
  2428436474, 2756734187, 3204031479, 3329325298]

/-- One round of the SHA-256 compression function. -/
def sha256Round (st : Sha256State) (k w : Nat) : Sha256State :=
  let t1 := add32 (add32 (add32 st.h (bsig1 st.e)) (add32 (ch32 st.e st.f st.g) k)) w
  let t2 := add32 (bsig0 st.a) (maj32 st.a st.b st.c)
  ⟨add32 t1 t2, st.a, st.b, st.c, add32 st.d t1, st.e, st.f, st.g⟩

/-- All 64 rounds, consuming the zipped (constant, schedule word) list. -/
def sha256Rounds (st : Sha256State) : List (Nat × Nat) → Sha256State
  | [] => st
  | (k, w) :: rest => sha256Rounds (sha256Round st k w) rest

/-- Message-schedule extension: append `fuel` further words W(t) for
t = 16 .. 63 to the 16 words of the block. -/
def extendW : Nat → List Nat → List Nat
  | 0, ws => ws
  | fuel + 1, ws =>
      let l := ws.length
      let nw := add32 (add32 (ssig1 (ws.getD (l - 2) 0)) (ws.getD (l - 7) 0))
                      (add32 (ssig0 (ws.getD (l - 15) 0)) (ws.getD (l - 16) 0))
      extendW fuel (ws ++ [nw])

/-- Pointwise mod 2 ^ 32 addition of two states. -/
def addState (x y : Sha256State) : Sha256State :=
  ⟨add32 x.a y.a, add32 x.b y.b, add32 x.c y.c, add32 x.d y.d,
   add32 x.e y.e, add32 x.f y.f, add32 x.g y.g, add32 x.h y.h⟩

/-- Compression of one 16-word block into the running state. -/
def compressBlock (st : Sha256State) (ws : List Nat) : Sha256State :=
  addState st (sha256Rounds st (List.zip K256 (extendW 48 ws)))

/-- Fold the compression function over the message words, 16 at a time. -/
def sha256Blocks (st : Sha256State) : List Nat → Sha256State
  | w0 :: w1 :: w2 :: w3 :: w4 :: w5 :: w6 :: w7 ::
    w8 :: w9 :: w10 :: w11 :: w12 :: w13 :: w14 :: w15 :: rest =>
      sha256Blocks
        (compressBlock st [w0, w1, w2, w3, w4, w5, w6, w7,
                           w8, w9, w10, w11, w12, w13, w14, w15]) rest
  | _ => st

/-- Big-endian packing of bytes into 32-bit words, four at a time. -/
def bytesToWords : List Nat → List Nat
  | b0 :: b1 :: b2 :: b3 :: rest =>
      (((b0 * 256 + b1) * 256 + b2) * 256 + b3) :: bytesToWords rest
  | _ => []

/-- Big-endian unpacking of one 32-bit word into four bytes. -/
def wordToBytes (w : Nat) : List Nat :=
  [w / 16777216 % 256, w / 65536 % 256, w / 256 % 256, w % 256]

/-- The message length in bits as eight big-endian bytes. -/
def lenBytes (n : Nat) : List Nat :=
  [n / 2 ^ 56 % 256, n / 2 ^ 48 % 256, n / 2 ^ 40 % 256, n / 2 ^ 32 % 256,
   n / 2 ^ 24 % 256, n / 2 ^ 16 % 256, n / 2 ^ 8 % 256, n % 256]

/-- SHA-256 padding: a 0x80 byte, zero bytes to 56 mod 64, then the bit
length as eight big-endian bytes. -/
def padMessage (msg : List Nat) : List Nat :=
  let l := msg.length
  msg ++ [128] ++ List.replicate ((119 - l % 64) % 64) 0 ++ lenBytes (8 * l)

/-- The 32 digest bytes of a final state, big-endian per word. -/
def stateToBytes (st : Sha256State) : List Nat :=
  wordToBytes st.a ++ wordToBytes st.b ++ wordToBytes st.c ++ wordToBytes st.d ++
  wordToBytes st.e ++ wordToBytes st.f ++ wordToBytes st.g ++ wordToBytes st.h

/-- SHA-256 of a byte list: 32 digest bytes.  Embeds Go `sha256.Sum256`. -/
def sha256 (msg : List Nat) : List Nat :=
  stateToBytes (sha256Blocks sha256Init (bytesToWords (padMessage msg)))

/-! ## Hex encoding and string-to-byte conversion -/

/-- The lowercase hex digit for a value below 16 (Go `encoding/hex` digit
table lookup). -/
def hexDigit (n : Nat) : Char :=
  match n with
  | 0 => '0' | 1 => '1' | 2 => '2' | 3 => '3' | 4 => '4'
  | 5 => '5' | 6 => '6' | 7 => '7' | 8 => '8' | 9 => '9'
  | 10 => 'a' | 11 => 'b' | 12 => 'c' | 13 => 'd' | 14 => 'e'
  | 15 => 'f' | _ => '*'

/-- The two hex digits of one byte, high nibble first (Go writes
`hextable[b>>4]` then `hextable[b&0x0f]`). -/
def hexByte (b : Nat) : List Char := [hexDigit (b / 16), hexDigit (b % 16)]

def hexChars : List Nat → List Char
  | [] => []
  | b :: rest => hexByte b ++ hexChars rest

/-- Lowercase hex encoding of a byte list.  Embeds Go
`hex.EncodeToString`. -/
def hexEncode (bs : List Nat) : String := ⟨hexChars bs⟩

/-- UTF-8 encoding of one character. -/
def utf8Bytes (c : Char) : List Nat :=
  let n := c.toNat
  if n < 128 then [n]
  else if n < 2048 then [192 + n / 64, 128 + n % 64]
  else if n < 65536 then [224 + n / 4096, 128 + n / 64 % 64, 128 + n % 64]
  else [240 + n / 262144, 128 + n / 4096 % 64, 128 + n / 64 % 64, 128 + n % 64]

/-- UTF-8 bytes of a string.  Embeds the Go conversion `[]byte(s)`. -/
def strBytes (s : String) : List Nat :=
  s.data.foldr (fun c acc => utf8Bytes c ++ acc) []

/-! ## Decimal rendering (the Sprintf verb `%d`) -/

/-- The decimal digit character for a value below 10. -/
def digitChar (n : Nat) : Char :=
  match n with
  | 0 => '0' | 1 => '1' | 2 => '2' | 3 => '3' | 4 => '4'
  | 5 => '5' | 6 => '6' | 7 => '7' | 8 => '8' | 9 => '9'
  | _ => '*'

/-- Decimal digits of a natural number, most significant first,
fuel-indexed so the recursion is structural. -/
def natDigits : Nat → Nat → List Char
  | 0, _ => []
  | fuel + 1, n =>
      if n < 10 then [digitChar n]
      else natDigits fuel (n / 10) ++ [digitChar (n % 10)]

/-- Decimal rendering of a natural number.  Embeds `%d` on values known
non-negative. -/
def natRepr (n : Nat) : String := ⟨natDigits (n + 1) n⟩

/-- Decimal rendering of an integer.  Embeds `%d` on `int64`. -/
def intRepr : Int → String
  | Int.ofNat m => natRepr m
  | Int.negSucc m => "-" ++ natRepr (m + 1)

/-! ## Fixed-point rendering of amounts (the Sprintf verb `%f`) -/

/-- Round a rational to the nearest integer multiple of 10 ^ (-6), scaled by
10 ^ 6; ties go to the even multiple, as Go strconv rounds.  Computed from
the numerator and denominator with integer arithmetic: with t the scaled
numerator, f its floor quotient by the denominator and r the remainder,
the fractional part r / den is compared against one half. -/
def round6 (q : ℚ) : Int :=
  let t : Int := q.num * 1000000
  let den : Int := (q.den : Int)
  let f : Int := t.fdiv den
  let r : Int := t.fmod den
  if 2 * r < den then f
  else if den < 2 * r then f + 1
  else if f % 2 = 0 then f else f + 1

/-- The fractional digits, left-padded with zeros to width six. -/
def pad6 (m : Nat) : List Char :=
  List.replicate (6 - (natDigits (m + 1) m).length) '0' ++ natDigits (m + 1) m

/-- Embeds `fmt.Sprintf` with verb `%f` on a non-negative amount: the
integer part, a point, then exactly six fractional digits. -/
def formatFloat (q : ℚ) : String :=
  let n : Int := round6 q
  intRepr (n / 1000000) ++ "." ++ String.mk (pad6 (n % 1000000).toNat)

/-! ## The data model of src/blockchain.go -/

/-- Go struct `Transaction`: sender, recipient, amount and derived
transaction id. -/
structure Transaction where
  Sender : String
  Recipient : String
  Amount : ℚ
  TXID : String := ""
deriving DecidableEq

/-- Go struct `Block`. -/
structure Block where
  Index : Nat
  Timestamp : Int
  Transactions : List Transaction
  Nonce : Nat
  PreviousHash : String
  Hash : String := ""
deriving DecidableEq

/-- Go struct `Blockchain`: the chain and the mempool. -/
structure Blockchain where
  Chain : List Block
  Transactions : List Transaction
deriving DecidableEq

/-! ## The operations of src/blockchain.go -/

/-- The serialized fields of one transaction inside the block hash input:
`tx.Sender + tx.Recipient` then the amount rendered with `%f`. -/
def txSerial (tx : Transaction) : String :=
  tx.Sender ++ tx.Recipient ++ formatFloat tx.Amount

/-- The transaction part of the hash input, in pool order (the `for` loop of
`calculateHash`). -/
def txConcat : List Transaction → String
  | [] => ""
  | tx :: rest => txSerial tx ++ txConcat rest

/-- The full serialized hash input of `calculateHash`:
`Sprintf of index timestamp nonce previousHash count` then the transaction
loop. -/
def calculateHashInput (block : Block) : String :=
  natRepr block.Index ++ intRepr block.Timestamp ++ natRepr block.Nonce ++
  block.PreviousHash ++ natRepr block.Transactions.length ++
  txConcat block.Transactions

/-- Go `calculateHash`: hex-encoded SHA-256 of the serialized block
fields. -/
def calculateHash (block : Block) : String :=
  hexEncode (sha256 (strBytes (calculateHashInput block)))

/-- Go `generateTransactionID`: hex-encoded SHA-256 of
`Sprintf of sender recipient amount` with `%f` on the amount. -/
def generateTransactionID (tx : Transaction) : String :=
  hexEncode (sha256 (strBytes (tx.Sender ++ tx.Recipient ++ formatFloat tx.Amount)))

/-- Go `addTransaction`: build the transaction, set its id, append it to the
mempool; returns the new state and the returned id. -/
def addTransaction (bc : Blockchain) (sender recipient : String) (amount : ℚ) :
    Blockchain × String :=
  let tx0 : Transaction := { Sender := sender, Recipient := recipient, Amount := amount }
  let tx : Transaction := { tx0 with TXID := generateTransactionID tx0 }
  ({ bc with Transactions := bc.Transactions ++ [tx] }, tx.TXID)

/-- Go `addBlock`: build the block from the current chain length, the given
nonce, timestamp and previous hash and the current mempool, store its hash,
append it, clear the mempool. -/
def addBlock (bc : Blockchain) (nonce : Nat) (timestamp : Int) (previousHash : String) :
    Blockchain :=
  let newBlock0 : Block :=
    { Index := bc.Chain.length, Timestamp := timestamp,
      Transactions := bc.Transactions, Nonce := nonce, PreviousHash := previousHash }
  let newBlock : Block := { newBlock0 with Hash := calculateHash newBlock0 }
  { bc with Chain := bc.Chain ++ [newBlock], Transactions := [] }

/-- Go `createGenesisBlock`: the fixed genesis block at the given clock
reading, hash stored. -/
def createGenesisBlock (now : Int) : Block :=
  let genesisBlock0 : Block :=
    { Index := 0, Timestamp := now, Transactions := [], Nonce := 100, PreviousHash := "0" }
  { genesisBlock0 with Hash := calculateHash genesisBlock0 }

/-- Go `createBlockchain`: empty chain and mempool, then the genesis block
appended. -/
def createBlockchain (now : Int) : Blockchain :=
  { Chain := [createGenesisBlock now], Transactions := [] }

/-- The first four characters of a hash, as Go slices the first four bytes
of the ASCII digest string in `guessHash` with index range up to 4. -/
def strTake4 (s : String) : String := ⟨s.data.take 4⟩

/-- Go `isProofValid`: hash the candidate block and compare the first four
characters against the difficulty target. -/
def isProofValid (lastBlock : Block) (nonce : Nat) (transactions : List Transaction)
    (candidateTimestamp : Int) : Bool :=
  let tempBlock : Block :=
    { Index := lastBlock.Index + 1, Timestamp := candidateTimestamp,
      Transactions := transactions, Nonce := nonce, PreviousHash := lastBlock.Hash }
  let guessHash := calculateHash tempBlock
  strTake4 guessHash == "0000"

/-- The zero value Go would read from an empty slice is never reached (the
chain always holds the genesis block); default used by `List.getLastD`. -/
def emptyBlock : Block :=
  { Index := 0, Timestamp := 0, Transactions := [], Nonce := 0,
    PreviousHash := "", Hash := "" }

/-- The chain tip `bc.Chain` at index `len(bc.Chain)-1`, read by
`proofOfWork` and by `main` before committing. -/
def lastChainBlock (bc : Blockchain) : Block :=
  bc.Chain.getD (bc.Chain.length - 1) emptyBlock

/-- The `for` loop of `proofOfWork`, fuel-indexed: starting from `nonce`,
return the first nonce accepted by `isProofValid`, or `none` if the loop
has not terminated within `fuel` iterations. -/
def powLoop (lastBlock : Block) (transactions : List Transaction)
    (candidateTimestamp : Int) : Nat → Nat → Option Nat
  | 0, _ => none
  | fuel + 1, nonce =>
      if isProofValid lastBlock nonce transactions candidateTimestamp then some nonce
      else powLoop lastBlock transactions candidateTimestamp fuel (nonce + 1)

/-- Go `proofOfWork`: snapshot the tip and the mempool, fix the candidate
timestamp, search nonces from 0; returns the found nonce paired with the
fixed timestamp.  Fuel-indexed rendering of the unbounded loop. -/
def proofOfWork (bc : Blockchain) (now : Int) (fuel : Nat) : Option (Nat × Int) :=
  let lastBlock := lastChainBlock bc
  let candidateTimestamp := now
  (powLoop lastBlock bc.Transactions candidateTimestamp fuel 0).map
    (fun nonce => (nonce, candidateTimestamp))

/-! ## Auxiliary definitions for the claims -/

/-- Recognizer for the sixteen lowercase hex digit characters. -/
def isHexDigitChar (c : Char) : Bool :=
  c == '0' || c == '1' || c == '2' || c == '3' || c == '4' || c == '5' ||
  c == '6' || c == '7' || c == '8' || c == '9' || c == 'a' || c == 'b' ||
  c == 'c' || c == 'd' || c == 'e' || c == 'f'

/-- Run a sequence of `addTransaction` calls, in order. -/
def applyTxs (bc : Blockchain) : List (String × String × ℚ) → Blockchain
  | [] => bc
  | (s, r, a) :: rest => applyTxs (addTransaction bc s r a).1 rest

/-- The chain states reachable by the flow of the program: creation at some
clock reading, then any interleaving of transaction submissions and commits
that pass the hash of the current tip as previous hash, as `main` does
(`proofOfWork` reads but never mutates the state, so it needs no case). -/
inductive Reachable : Blockchain → Prop
  | init (now : Int) : Reachable (createBlockchain now)
  | tx {bc : Blockchain} (sender recipient : String) (amount : ℚ)
      (h : Reachable bc) : Reachable (addTransaction bc sender recipient amount).1
  | commit {bc : Blockchain} (nonce : Nat) (timestamp : Int)
      (h : Reachable bc) : Reachable (addBlock bc nonce timestamp (lastChainBlock bc).Hash)

/-- A committed chain: genesis at clock 0, one transaction of amount
10 ^ (-7), then a commit. -/
def cexChain : Blockchain :=
  addBlock (addTransaction (createBlockchain 0) "Alice" "Bob" (mkRat 1 10000000)).1 5 0
    (lastChainBlock (addTransaction (createBlockchain 0) "Alice" "Bob" (mkRat 1 10000000)).1).Hash

/-- The committed block holding the amount-10 ^ (-7) transaction. -/
def cexBlock : Block := lastChainBlock cexChain

/-- The same committed block with the single transaction amount changed to
2 * 10 ^ (-7) and every other field unchanged. -/
def cexTampered : Block :=
  { cexBlock with
    Transactions := cexBlock.Transactions.map fun tx => { tx with Amount := mkRat 2 10000000 } }

/-- A small concrete block used to instantiate the amended tamper-evidence
theorem. -/
def tamperWitnessBlock : Block :=
  { Index := 1, Timestamp := 2,
    Transactions := [{ Sender := "Alice", Recipient := "Bob", Amount := 50 }],
    Nonce := 3, PreviousHash := "p", Hash := "" }

/-! ## Helper lemmas: decimal digits are injective -/

/-- The value of a decimal digit character; inverse of `digitChar` on
digits. -/
def digitVal (c : Char) : Nat :=
  match c with
  | '0' => 0 | '1' => 1 | '2' => 2 | '3' => 3 | '4' => 4
  | '5' => 5 | '6' => 6 | '7' => 7 | '8' => 8 | '9' => 9
  | _ => 0

/-- Read a digit list back into a natural number. -/
def parseDigits (l : List Char) : Nat :=
  l.foldl (fun a c => 10 * a + digitVal c) 0

theorem parseDigits_append_one (xs : List Char) (c : Char) :
    parseDigits (xs ++ [c]) = 10 * parseDigits xs + digitVal c := by
  simp [parseDigits, List.foldl_append]

theorem digitVal_digitChar {n : Nat} (h : n < 10) : digitVal (digitChar n) = n := by
  interval_cases n <;> rfl

theorem parseDigits_natDigits : ∀ fuel n, n < fuel → parseDigits (natDigits fuel n) = n := by
  intro fuel
  induction fuel with
  | zero => intro n h; omega
  | succ fuel ih =>
      intro n h
      by_cases h10 : n < 10
      · simp only [natDigits, if_pos h10]
        simp [parseDigits, digitVal_digitChar h10]
      · have hd : n / 10 < fuel := by
          have := Nat.div_lt_self (by omega : 0 < n) (by omega : 1 < 10)
          omega
        simp only [natDigits, if_neg h10]
        rw [parseDigits_append_one, ih _ hd, digitVal_digitChar (Nat.mod_lt n (by omega))]
        omega

theorem natDigits_inj {m n : Nat} (h : natDigits (m + 1) m = natDigits (n + 1) n) :
    m = n := by
  have h1 := parseDigits_natDigits (m + 1) m (by omega)
  have h2 := parseDigits_natDigits (n + 1) n (by omega)
  rw [h] at h1
  omega

theorem natRepr_inj {m n : Nat} (h : natRepr m = natRepr n) : m = n :=
  natDigits_inj (congrArg String.data h)

theorem digitChar_ne_minus (n : Nat) : digitChar n ≠ '-' := by
  unfold digitChar
  split <;> decide

theorem minus_not_mem_natDigits : ∀ fuel n, '-' ∉ natDigits fuel n := by
  intro fuel
  induction fuel with
  | zero => intro n h; simp [natDigits] at h
  | succ fuel ih =>
      intro n h
      by_cases h10 : n < 10
      · simp only [natDigits, if_pos h10, List.mem_singleton] at h
        exact digitChar_ne_minus n h.symm
      · simp only [natDigits, if_neg h10, List.mem_append, List.mem_singleton] at h
        rcases h with h | h
        · exact ih _ h
        · exact digitChar_ne_minus _ h.symm

theorem intRepr_inj : ∀ {a b : Int}, intRepr a = intRepr b → a = b := by
  intro a b h
  cases a with
  | ofNat m =>
      cases b with
      | ofNat n => exact congrArg Int.ofNat (natRepr_inj h)
      | negSucc n =>
          exfalso
          have hd := congrArg String.data h
          simp only [intRepr, String.data_append] at hd
          have hm : '-' ∈ (natRepr m).data := by
            rw [hd]
            simp
          exact minus_not_mem_natDigits (m + 1) m hm
  | negSucc m =>
      cases b with
      | ofNat n =>
          exfalso
          have hd := congrArg String.data h
          simp only [intRepr, String.data_append] at hd
          have hm : '-' ∈ (natRepr n).data := by
            rw [← hd]
            simp
          exact minus_not_mem_natDigits (n + 1) n hm
      | negSucc n =>
          have hd := congrArg String.data h
          simp only [intRepr, String.data_append] at hd
          have h2 := List.append_cancel_left hd
          have h3 : natDigits (m + 1 + 1) (m + 1) = natDigits (n + 1 + 1) (n + 1) := h2
          have h4 := natDigits_inj h3
          have h5 : m = n := by omega
          rw [h5]

/-! ## Helper lemmas: the mining loop -/

theorem powLoop_finds (lb : Block) (txs : List Transaction) (ts : Int) :
    ∀ fuel start n : Nat, start ≤ n → n < start + fuel →
      isProofValid lb n txs ts = true →
      (∀ m, start ≤ m → m < n → isProofValid lb m txs ts = false) →
      powLoop lb txs ts fuel start = some n := by
  intro fuel
  induction fuel with
  | zero => intro start n h1 h2 _ _; omega
  | succ fuel ih =>
      intro start n h1 h2 hv hmin
      by_cases hs : isProofValid lb start txs ts = true
      · have hn : start = n := by
          rcases Nat.lt_or_ge start n with hlt | hge
          · rw [hmin start (Nat.le_refl _) hlt] at hs
            cases hs
          · omega
        rw [powLoop, if_pos hs, hn]
      · have hns : start ≠ n := by
          intro he
          rw [he, hv] at hs
          exact hs rfl
        rw [powLoop, if_neg hs]
        exact ih (start + 1) n (by omega) (by omega) hv
          (fun m hm1 hm2 => hmin m (by omega) hm2)

theorem powLoop_sound (lb : Block) (txs : List Transaction) (ts : Int) :
    ∀ fuel start n : Nat, powLoop lb txs ts fuel start = some n →
      isProofValid lb n txs ts = true ∧ start ≤ n ∧
      ∀ m, start ≤ m → m < n → isProofValid lb m txs ts = false := by
  intro fuel
  induction fuel with
  | zero => intro start n h; cases h
  | succ fuel ih =>
      intro start n h
      rw [powLoop] at h
      by_cases hs : isProofValid lb start txs ts = true
      · rw [if_pos hs] at h
        cases h
        exact ⟨hs, Nat.le_refl _, fun m hm1 hm2 => by omega⟩
      · rw [if_neg hs] at h
        obtain ⟨hv, hle, hmin⟩ := ih (start + 1) n h
        refine ⟨hv, by omega, fun m hm1 hm2 => ?_⟩
        rcases Nat.eq_or_lt_of_le hm1 with he | hlt
        · rw [← he]
          revert hs
          cases isProofValid lb start txs ts <;> simp
        · exact hmin m (by omega) hm2

theorem powLoop_mono (lb : Block) (txs : List Transaction) (ts : Int) :
    ∀ fuel fuel2 start n : Nat, fuel ≤ fuel2 →
      powLoop lb txs ts fuel start = some n → powLoop lb txs ts fuel2 start = some n := by
  intro fuel
  induction fuel with
  | zero => intro fuel2 start n _ h; cases h
  | succ fuel ih =>
      intro fuel2 start n hle h
      obtain ⟨fuel3, rfl⟩ : ∃ k, fuel2 = k + 1 := by
        cases fuel2 with
        | zero => omega
        | succ k => exact ⟨k, rfl⟩
      rw [powLoop] at h ⊢
      by_cases hs : isProofValid lb start txs ts = true
      · rw [if_pos hs] at h ⊢
        exact h
      · rw [if_neg hs] at h ⊢
        exact ih fuel3 (start + 1) n (by omega) h

/-! ## Helper lemmas: the serialized hash input -/

theorem txConcat_data_append (l1 l2 : List Transaction) :
    (txConcat (l1 ++ l2)).data = (txConcat l1).data ++ (txConcat l2).data := by
  induction l1 with
  | nil => simp [txConcat]
  | cons tx rest ih => simp [txConcat, String.data_append, ih]

theorem txConcat_data_cons (tx : Transaction) (l : List Transaction) :
    (txConcat (tx :: l)).data =
      tx.Sender.data ++ tx.Recipient.data ++ (formatFloat tx.Amount).data ++
      (txConcat l).data := by
  simp [txConcat, txSerial, String.data_append]

theorem calculateHashInput_data (b : Block) :
    (calculateHashInput b).data =
      natDigits (b.Index + 1) b.Index ++ (intRepr b.Timestamp).data ++
      natDigits (b.Nonce + 1) b.Nonce ++ b.PreviousHash.data ++
      natDigits (b.Transactions.length + 1) b.Transactions.length ++
      (txConcat b.Transactions).data := by
  simp [calculateHashInput, String.data_append, natRepr]

theorem hashInput_nonce_ne (b : Block) (n2 : Nat) (hne : n2 ≠ b.Nonce) :
    calculateHashInput { b with Nonce := n2 } ≠ calculateHashInput b := by
  intro he
  have hd := congrArg String.data he
  simp only [calculateHashInput_data, List.append_assoc] at hd
  have h1 := List.append_cancel_left hd
  have h2 := List.append_cancel_left h1
  exact hne (natDigits_inj (List.append_cancel_right h2))

theorem hashInput_timestamp_ne (b : Block) (t2 : Int) (hne : t2 ≠ b.Timestamp) :
    calculateHashInput { b with Timestamp := t2 } ≠ calculateHashInput b := by
  intro he
  have hd := congrArg String.data he
  simp only [calculateHashInput_data, List.append_assoc] at hd
  have h1 := List.append_cancel_left hd
  exact hne (intRepr_inj (String.ext (List.append_cancel_right h1)))

theorem hashInput_sender_ne (b : Block) (pre : List Transaction) (tx : Transaction)
    (post : List Transaction) (s2 : String)
    (hb : b.Transactions = pre ++ tx :: post) (hne : s2 ≠ tx.Sender) :
    calculateHashInput { b with Transactions := pre ++ { tx with Sender := s2 } :: post } ≠
      calculateHashInput b := by
  intro he
  have hd := congrArg String.data he
  rw [calculateHashInput_data, calculateHashInput_data, hb] at hd
  simp only [txConcat_data_append, txConcat_data_cons, List.length_append,
    List.length_cons, List.append_assoc] at hd
  have h1 := List.append_cancel_left hd
  have h2 := List.append_cancel_left h1
  have h3 := List.append_cancel_left h2
  have h4 := List.append_cancel_left h3
  have h5 := List.append_cancel_left h4
  have h6 := List.append_cancel_left h5
  exact hne (String.ext (List.append_cancel_right h6))

theorem hashInput_amount_iff (b : Block) (pre : List Transaction) (tx : Transaction)
    (post : List Transaction) (a2 : ℚ)
    (hb : b.Transactions = pre ++ tx :: post) :
    calculateHashInput { b with Transactions := pre ++ { tx with Amount := a2 } :: post } =
      calculateHashInput b ↔ formatFloat a2 = formatFloat tx.Amount := by
  constructor
  · intro he
    have hd := congrArg String.data he
    rw [calculateHashInput_data, calculateHashInput_data, hb] at hd
    simp only [txConcat_data_append, txConcat_data_cons, List.length_append,
      List.length_cons, List.append_assoc] at hd
    have h1 := List.append_cancel_left hd
    have h2 := List.append_cancel_left h1
    have h3 := List.append_cancel_left h2
    have h4 := List.append_cancel_left h3
    have h5 := List.append_cancel_left h4
    have h6 := List.append_cancel_left h5
    have h7 := List.append_cancel_left h6
    have h8 := List.append_cancel_left h7
    exact String.ext (List.append_cancel_right h8)
  · intro hf
    apply String.ext
    rw [calculateHashInput_data, calculateHashInput_data, hb]
    simp only [txConcat_data_append, txConcat_data_cons, List.length_append,
      List.length_cons, List.append_assoc]
    rw [hf]

/-! ## Helper lemmas: hash shape -/

theorem sha256_length (msg : List Nat) : (sha256 msg).length = 32 := by
  simp [sha256, stateToBytes, wordToBytes]

theorem wordToBytes_lt (w : Nat) : ∀ x ∈ wordToBytes w, x < 256 := by
  intro x hx
  simp only [wordToBytes, List.mem_cons, List.not_mem_nil, or_false] at hx
  rcases hx with rfl | rfl | rfl | rfl <;> omega

theorem sha256_lt (msg : List Nat) : ∀ x ∈ sha256 msg, x < 256 := by
  intro x hx
  simp only [sha256, stateToBytes, List.mem_append] at hx
  rcases hx with ((((((h | h) | h) | h) | h) | h) | h) | h <;>
    exact wordToBytes_lt _ x h

theorem isHexDigitChar_hexDigit {n : Nat} (h : n < 16) :
    isHexDigitChar (hexDigit n) = true := by
  interval_cases n <;> rfl

theorem hexChars_length (bs : List Nat) : (hexChars bs).length = 2 * bs.length := by
  induction bs with
  | nil => rfl
  | cons b rest ih =>
      simp only [hexChars, hexByte, List.length_append, List.length_cons,
        List.length_nil, ih]
      omega

theorem hexChars_mem (bs : List Nat) (hb : ∀ x ∈ bs, x < 256) :
    ∀ c ∈ hexChars bs, isHexDigitChar c = true := by
  induction bs with
  | nil => intro c hc; cases hc
  | cons b rest ih =>
      intro c hc
      have hb0 : b < 256 := hb b (List.mem_cons_self b rest)
      simp only [hexChars, hexByte, List.mem_append, List.mem_cons,
        List.not_mem_nil, or_false] at hc
      rcases hc with (rfl | rfl) | hc
      · exact isHexDigitChar_hexDigit (by omega)
      · exact isHexDigitChar_hexDigit (by omega)
      · exact ih (fun x hx => hb x (List.mem_cons_of_mem b hx)) c hc

/-! ## The claims -/

/-- Claim C2: after any `addBlock` call the pool is empty, the chain grew by
exactly one block, and the appended block carries the pre-append chain
length as index, the given timestamp, nonce and previous hash, the pool
contents at commit time as its transaction list, and the canonical hash of
its fields as its stored hash. -/
theorem claim2_commit_block (bc : Blockchain) (nonce : Nat) (ts : Int) (prev : String) :
    (addBlock bc nonce ts prev).Transactions = [] ∧
    (addBlock bc nonce ts prev).Chain.length = bc.Chain.length + 1 ∧
    ∃ nb : Block,
      (addBlock bc nonce ts prev).Chain = bc.Chain ++ [nb] ∧
      nb.Index = bc.Chain.length ∧ nb.Timestamp = ts ∧ nb.Nonce = nonce ∧
      nb.PreviousHash = prev ∧ nb.Transactions = bc.Transactions ∧
      nb.Hash = calculateHash nb := by
  refine ⟨rfl, by simp [addBlock], ?_⟩
  exact ⟨_, rfl, rfl, rfl, rfl, rfl, rfl, rfl⟩

/-- Claim C3: a freshly created chain has length one and an empty pool, and
its sole block is the genesis block: index 0, previous hash the sentinel
"0", nonce 100, no transactions, stored hash equal to the canonical hash of
its fields. -/
theorem claim3_genesis (now : Int) :
    (createBlockchain now).Chain.length = 1 ∧
    (createBlockchain now).Transactions = [] ∧
    ∃ g : Block, (createBlockchain now).Chain = [g] ∧ g.Index = 0 ∧
      g.PreviousHash = "0" ∧ g.Nonce = 100 ∧ g.Transactions = [] ∧
      g.Hash = calculateHash g :=
  ⟨rfl, rfl, createGenesisBlock now, rfl, rfl, rfl, rfl, rfl, rfl⟩

/-- Claim C6: the block hash is a pure, deterministic function of the five
hashed fields; two blocks agreeing on index, timestamp, nonce, previous
hash and transaction list receive the same digest (in particular the stored
`Hash` field does not influence it). -/
theorem claim6_hash_deterministic (b1 b2 : Block)
    (h1 : b1.Index = b2.Index) (h2 : b1.Timestamp = b2.Timestamp)
    (h3 : b1.Nonce = b2.Nonce) (h4 : b1.PreviousHash = b2.PreviousHash)
    (h5 : b1.Transactions = b2.Transactions) :
    calculateHash b1 = calculateHash b2 := by
  unfold calculateHash calculateHashInput
  rw [h1, h2, h3, h4, h5]

/-- Witness for C6 at a concrete input: two blocks equal in all hashed
fields but with different stored hash fields receive the same digest. -/
theorem claim6_witness :
    calculateHash { Index := 1, Timestamp := 2, Transactions := [], Nonce := 3,
                    PreviousHash := "p", Hash := "x" } =
    calculateHash { Index := 1, Timestamp := 2, Transactions := [], Nonce := 3,
                    PreviousHash := "p", Hash := "y" } :=
  claim6_hash_deterministic _ _ rfl rfl rfl rfl rfl

/-- Claim C7: the transaction id is a pure function of sender, recipient
and amount; `addTransaction` appends a transaction bearing exactly the
returned id; and the amount 50 written as 50, 50.0 or 50.00 produces the
same id. -/
theorem claim7_txid_pure :
    (∀ t1 t2 : Transaction, t1.Sender = t2.Sender → t1.Recipient = t2.Recipient →
       t1.Amount = t2.Amount → generateTransactionID t1 = generateTransactionID t2) ∧
    (∀ (bc : Blockchain) (s r : String) (a : ℚ),
       ∃ tx : Transaction,
         (addTransaction bc s r a).1.Transactions = bc.Transactions ++ [tx] ∧
         tx.TXID = (addTransaction bc s r a).2 ∧
         tx.Sender = s ∧ tx.Recipient = r ∧ tx.Amount = a) ∧
    (∀ bc : Blockchain,
       (addTransaction bc "Alice" "Bob" 50).2 = (addTransaction bc "Alice" "Bob" 50.0).2 ∧
       (addTransaction bc "Alice" "Bob" 50.0).2 = (addTransaction bc "Alice" "Bob" 50.00).2) := by
  refine ⟨?_, ?_, ?_⟩
  · intro t1 t2 h1 h2 h3
    unfold generateTransactionID
    rw [h1, h2, h3]
  · intro bc s r a
    exact ⟨_, rfl, rfl, rfl, rfl, rfl⟩
  · intro bc
    have h1 : (50.0 : ℚ) = 50 := by norm_num
    have h2 : (50.00 : ℚ) = 50 := by norm_num
    rw [h1, h2]
    exact ⟨rfl, rfl⟩

/-- Witness for C7 at a concrete input: two transactions with the same
sender, recipient and amount (but different stored ids) generate the same
transaction id. -/
theorem claim7_witness :
    generateTransactionID { Sender := "Alice", Recipient := "Bob", Amount := 50, TXID := "a" } =
    generateTransactionID { Sender := "Alice", Recipient := "Bob", Amount := 50, TXID := "b" } :=
  claim7_txid_pure.1 _ _ rfl rfl rfl

/-- Claim C8: committed blocks are frozen snapshots: any sequence of
`addTransaction` calls after a commit leaves the whole block sequence (in
particular every committed block and its transaction list) unchanged, and
`addTransaction` never changes the block sequence of any state. -/
theorem claim8_committed_frozen (bc : Blockchain) (nonce : Nat) (ts : Int)
    (prev : String) (ops : List (String × String × ℚ)) :
    (applyTxs (addBlock bc nonce ts prev) ops).Chain = (addBlock bc nonce ts prev).Chain ∧
    ∀ bc2 : Blockchain, (applyTxs bc2 ops).Chain = bc2.Chain := by
  have key : ∀ (l : List (String × String × ℚ)) (bc2 : Blockchain),
      (applyTxs bc2 l).Chain = bc2.Chain := by
    intro l
    induction l with
    | nil => intro bc2; rfl
    | cons op rest ih =>
        intro bc2
        obtain ⟨s, r, a⟩ := op
        exact ih (addTransaction bc2 s r a).1
  exact ⟨key ops _, key ops⟩

/-! ## Helper lemma: appending a block linked to the tip -/

theorem chain_invariants_append (l : List Block) (nb : Block)
    (hne : l ≠ [])
    (hidx : ∀ i (hi : i < l.length), (l[i]).Index = i)
    (hlink : ∀ i (hi : i + 1 < l.length), (l[i + 1]).PreviousHash = (l[i]).Hash)
    (hnb1 : nb.Index = l.length)
    (hnb2 : nb.PreviousHash = (l.getD (l.length - 1) emptyBlock).Hash) :
    (l ++ [nb]) ≠ [] ∧
    (∀ i (hi : i < (l ++ [nb]).length), ((l ++ [nb])[i]).Index = i) ∧
    (∀ i (hi : i + 1 < (l ++ [nb]).length),
      ((l ++ [nb])[i + 1]).PreviousHash = ((l ++ [nb])[i]).Hash) := by
  have hpos : 0 < l.length := List.length_pos.mpr hne
  refine ⟨by simp, ?_, ?_⟩
  · intro i hi
    have hi2 : i < l.length + 1 := by simpa using hi
    rcases Nat.lt_or_ge i l.length with hlt | hge
    · rw [List.getElem_append_left hlt]
      exact hidx i hlt
    · have hieq : i = l.length := by omega
      subst hieq
      rw [List.getElem_concat_length l nb l.length rfl]
      exact hnb1
  · intro i hi
    have hi2 : i + 1 < l.length + 1 := by simpa using hi
    rcases Nat.lt_or_ge (i + 1) l.length with hlt | hge
    · have hilt : i < l.length := by omega
      rw [List.getElem_append_left hlt, List.getElem_append_left hilt]
      exact hlink i hlt
    · have hieq : i + 1 = l.length := by omega
      have hilt : i < l.length := by omega
      have hieq2 : l.length - 1 = i := by omega
      rw [List.getElem_append_left hilt,
        List.getElem_concat_length l nb (i + 1) hieq, hnb2, hieq2,
        List.getD_eq_getElem l emptyBlock hilt]

/-- Claim C4: in every state reachable from chain creation by transaction
submissions and commits that pass the tip hash as previous hash, the chain
is non-empty, the block at position `i` has index `i`, and every
non-genesis block's previous hash equals the stored hash of its
predecessor. -/
theorem claim4_chain_invariants (bc : Blockchain) (h : Reachable bc) :
    bc.Chain ≠ [] ∧
    (∀ i (hi : i < bc.Chain.length), (bc.Chain[i]).Index = i) ∧
    (∀ i (hi : i + 1 < bc.Chain.length),
      (bc.Chain[i + 1]).PreviousHash = (bc.Chain[i]).Hash) := by
  induction h with
  | init now =>
      refine ⟨by simp [createBlockchain], ?_, ?_⟩
      · intro i hi
        simp only [createBlockchain, List.length_cons, List.length_nil] at hi
        have hieq : i = 0 := by omega
        subst hieq
        rfl
      · intro i hi
        simp only [createBlockchain, List.length_cons, List.length_nil] at hi
        omega
  | tx sender recipient amount hr ih => exact ih
  | commit nonce timestamp hr ih =>
      obtain ⟨hne, hidx, hlink⟩ := ih
      exact chain_invariants_append _ _ hne hidx hlink rfl rfl

/-- Witness for C4 at a concrete input: the invariants hold for the state
created at clock reading 0. -/
theorem claim4_witness :
    (createBlockchain 0).Chain ≠ [] ∧
    (∀ i (hi : i < (createBlockchain 0).Chain.length),
      ((createBlockchain 0).Chain[i]).Index = i) ∧
    (∀ i (hi : i + 1 < (createBlockchain 0).Chain.length),
      ((createBlockchain 0).Chain[i + 1]).PreviousHash =
        ((createBlockchain 0).Chain[i]).Hash) :=
  claim4_chain_invariants (createBlockchain 0) (Reachable.init 0)

theorem bool_ne_true_eq_false {b : Bool} (h : ¬ b = true) : b = false := by
  cases b
  · rfl
  · exact absurd rfl h

/-- Claim C1: with the tip, pool snapshot and candidate timestamp fixed,
the mining search scans nonces 0, 1, 2, ...: whenever it returns, the
returned pair carries the fixed timestamp and the first valid nonce (the
nonce is accepted by `isProofValid` and every smaller nonce is rejected),
and the candidate block hash built from the returned data has first four
characters exactly "0000"; under the hypothesis that some valid nonce
exists, the search does return. -/
theorem claim1_pow_first_valid (bc : Blockchain) (now : Int)
    (hex : ∃ k, isProofValid (lastChainBlock bc) k bc.Transactions now = true) :
    (∀ (fuel n : Nat) (ts : Int), proofOfWork bc now fuel = some (n, ts) →
      ts = now ∧
      isProofValid (lastChainBlock bc) n bc.Transactions now = true ∧
      (∀ m, m < n → isProofValid (lastChainBlock bc) m bc.Transactions now = false) ∧
      strTake4 (calculateHash
        { Index := (lastChainBlock bc).Index + 1, Timestamp := now,
          Transactions := bc.Transactions, Nonce := n,
          PreviousHash := (lastChainBlock bc).Hash, Hash := "" }) = "0000") ∧
    ∃ fuel n : Nat, proofOfWork bc now fuel = some (n, now) := by
  constructor
  · intro fuel n ts hsome
    simp only [proofOfWork, Option.map_eq_some'] at hsome
    obtain ⟨k, hk, hpair⟩ := hsome
    injection hpair with h1 h2
    subst h1
    subst h2
    obtain ⟨hv, hzero, hmin⟩ :=
      powLoop_sound (lastChainBlock bc) bc.Transactions now fuel 0 k hk
    refine ⟨rfl, hv, fun m hm => hmin m (Nat.zero_le m) hm, ?_⟩
    simp only [isProofValid, beq_iff_eq] at hv
    exact hv
  · have hfind := Nat.find_spec hex
    have hmin : ∀ m, m < Nat.find hex →
        isProofValid (lastChainBlock bc) m bc.Transactions now = false :=
      fun m hm => bool_ne_true_eq_false (Nat.find_min hex hm)
    have hloop := powLoop_finds (lastChainBlock bc) bc.Transactions now
      (Nat.find hex + 1) 0 (Nat.find hex) (Nat.zero_le _) (by omega) hfind
      (fun m _ hm2 => hmin m hm2)
    refine ⟨Nat.find hex + 1, Nat.find hex, ?_⟩
    simp only [proofOfWork]
    rw [hloop]
    rfl

set_option maxRecDepth 40000 in
/-- Witness for C1 at a concrete input: on the chain created at clock 227,
with candidate timestamp 227, some fuel makes the search return (nonce 116
is valid there, checked by kernel evaluation of the embedded SHA-256). -/
theorem claim1_witness :
    ∃ fuel n : Nat, proofOfWork (createBlockchain 227) 227 fuel = some (n, 227) :=
  (claim1_pow_first_valid (createBlockchain 227) 227 ⟨116, by decide⟩).2

/-- Claim C9: under the precondition that some nonce makes the candidate
hash start with "0000" for the fixed tip, pool snapshot and timestamp, the
mining search terminates: some finite fuel suffices, and any larger fuel
returns the same result. -/
theorem claim9_pow_terminates (bc : Blockchain) (now : Int)
    (hex : ∃ k, isProofValid (lastChainBlock bc) k bc.Transactions now = true) :
    ∃ (fuel : Nat) (res : Nat × Int), proofOfWork bc now fuel = some res ∧
      ∀ fuel2, fuel ≤ fuel2 → proofOfWork bc now fuel2 = some res := by
  have hfind := Nat.find_spec hex
  have hmin : ∀ m, m < Nat.find hex →
      isProofValid (lastChainBlock bc) m bc.Transactions now = false :=
    fun m hm => bool_ne_true_eq_false (Nat.find_min hex hm)
  have hloop := powLoop_finds (lastChainBlock bc) bc.Transactions now
    (Nat.find hex + 1) 0 (Nat.find hex) (Nat.zero_le _) (by omega) hfind
    (fun m _ hm2 => hmin m hm2)
  refine ⟨Nat.find hex + 1, (Nat.find hex, now), ?_, ?_⟩
  · simp only [proofOfWork]
    rw [hloop]
    rfl
  · intro fuel2 hle
    have hloop2 := powLoop_mono (lastChainBlock bc) bc.Transactions now
      (Nat.find hex + 1) fuel2 0 (Nat.find hex) hle hloop
    simp only [proofOfWork]
    rw [hloop2]
    rfl

set_option maxRecDepth 40000 in
/-- Witness for C9 at a concrete input: on the chain created at clock 227,
with candidate timestamp 227, the search terminates and its result is
stable under extra fuel (nonce 116 is valid there, checked by kernel
evaluation of the embedded SHA-256). -/
theorem claim9_witness :
    ∃ (fuel : Nat) (res : Nat × Int),
      proofOfWork (createBlockchain 227) 227 fuel = some res ∧
      ∀ fuel2, fuel ≤ fuel2 → proofOfWork (createBlockchain 227) 227 fuel2 = some res :=
  claim9_pow_terminates (createBlockchain 227) 227 ⟨116, by decide⟩

/-- Claim C10: every block hash is a string of exactly 64 lowercase hex
characters; consequently taking its first four characters, as the
difficulty check does, is always in bounds and yields a string of length
four. -/
theorem claim10_hash_shape (b : Block) :
    (calculateHash b).length = 64 ∧
    (calculateHash b).data.all isHexDigitChar = true ∧
    (strTake4 (calculateHash b)).length = 4 := by
  have hlen : (calculateHash b).length = 64 := by
    show (hexChars (sha256 (strBytes (calculateHashInput b)))).length = 64
    rw [hexChars_length, sha256_length]
  refine ⟨hlen, ?_, ?_⟩
  · exact List.all_eq_true.mpr (hexChars_mem _ (sha256_lt _))
  · show ((calculateHash b).data.take 4).length = 4
    have h2 : (calculateHash b).data.length = 64 := hlen
    rw [List.length_take, h2]
    omega

/-- Claim C5, amended: for every committed block, changing the nonce, the
timestamp, or the sender of any transaction (all other fields fixed)
changes the serialized input of the block hash function; changing the
amount of a transaction changes the serialized input exactly when the
six-decimal fixed-point rendering of the amount changes, and when that
rendering is unchanged the computed block hash itself is unchanged. -/
theorem claim5_tamper_amended (b : Block) :
    (∀ n2 : Nat, n2 ≠ b.Nonce →
      calculateHashInput { b with Nonce := n2 } ≠ calculateHashInput b) ∧
    (∀ t2 : Int, t2 ≠ b.Timestamp →
      calculateHashInput { b with Timestamp := t2 } ≠ calculateHashInput b) ∧
    (∀ (pre : List Transaction) (tx : Transaction) (post : List Transaction) (s2 : String),
      b.Transactions = pre ++ tx :: post → s2 ≠ tx.Sender →
      calculateHashInput { b with Transactions := pre ++ { tx with Sender := s2 } :: post } ≠
        calculateHashInput b) ∧
    (∀ (pre : List Transaction) (tx : Transaction) (post : List Transaction) (a2 : ℚ),
      b.Transactions = pre ++ tx :: post →
      (calculateHashInput { b with Transactions := pre ++ { tx with Amount := a2 } :: post } =
          calculateHashInput b ↔ formatFloat a2 = formatFloat tx.Amount)) ∧
    (∀ (pre : List Transaction) (tx : Transaction) (post : List Transaction) (a2 : ℚ),
      b.Transactions = pre ++ tx :: post → formatFloat a2 = formatFloat tx.Amount →
      calculateHash { b with Transactions := pre ++ { tx with Amount := a2 } :: post } =
        calculateHash b) := by
  refine ⟨hashInput_nonce_ne b, hashInput_timestamp_ne b,
    fun pre tx post s2 hb hne => hashInput_sender_ne b pre tx post s2 hb hne,
    fun pre tx post a2 hb => hashInput_amount_iff b pre tx post a2 hb,
    fun pre tx post a2 hb hf => ?_⟩
  have hin := (hashInput_amount_iff b pre tx post a2 hb).mpr hf
  unfold calculateHash
  rw [hin]

set_option maxRecDepth 100000 in
/-- Counterexample to C5 as stated: in a committed block holding one
transaction of amount 10 ^ (-7), changing that amount to 2 * 10 ^ (-7)
(every other field fixed) leaves the computed hash unchanged, because the
Sprintf verb used by the code renders both amounts as "0.000000". -/
theorem claim5_counterexample :
    cexTampered.Transactions.map Transaction.Amount ≠
      cexBlock.Transactions.map Transaction.Amount ∧
    cexTampered.Transactions.map Transaction.Sender =
      cexBlock.Transactions.map Transaction.Sender ∧
    cexTampered.Transactions.map Transaction.Recipient =
      cexBlock.Transactions.map Transaction.Recipient ∧
    cexTampered.Index = cexBlock.Index ∧
    cexTampered.Timestamp = cexBlock.Timestamp ∧
    cexTampered.Nonce = cexBlock.Nonce ∧
    cexTampered.PreviousHash = cexBlock.PreviousHash ∧
    calculateHash cexTampered = calculateHash cexBlock := by
  have hinput : calculateHashInput cexTampered = calculateHashInput cexBlock := by decide
  refine ⟨by decide, rfl, rfl, rfl, rfl, rfl, rfl, ?_⟩
  unfold calculateHash
  rw [hinput]

/-- Witness for the amended C5 at a concrete input: changing the nonce of a
concrete committed-shape block changes the serialized hash input. -/
theorem claim5_witness :
    calculateHashInput { tamperWitnessBlock with Nonce := 7 } ≠
      calculateHashInput tamperWitnessBlock :=
  (claim5_tamper_amended tamperWitnessBlock).1 7 (by decide)
